import Mathlib

/-!
Verification of the adaptive chunking and resilient query protocol of the
`doc-sum` repository (`testdocsum.py`, with the `v9docsumvim.py` and
`old_code/v11docsumvim.py` variants where the claims refer to them).

Python strings are modelled as `List Char`; the remote Groq client is
modelled as an oracle mapping an input text to either a successful chat
completion (identified with its message content) or to one of the exception
classes the code catches.  The unbounded recursion of `groq_query` is
modelled with an explicit recursion-depth budget (`fuel`): a result of
`none` means that the Python call has not returned within that recursion
depth, so `(∀ fuel, result = none)` means the Python function never
returns on that input.  Alongside its result, the model returns the list
of `time.sleep` durations performed, in order, which makes the backoff
behaviour of the code a provable property.
-/

namespace DocSum

/-- Python `str`, modelled as a list of characters. -/
abbrev Str := List Char

/-- The ASCII whitespace characters removed by Python's `str.strip()`
(space, tab, newline, carriage return, vertical tab, form feed). -/
def isPySpace (c : Char) : Bool :=
  c == ' ' || c == '\t' || c == '\n' || c == '\r' || c == '\x0b' || c == '\x0c'

/-- Python's `s.strip()`: drop leading and trailing whitespace. -/
def pyStrip (s : Str) : Str :=
  ((s.dropWhile isPySpace).reverse.dropWhile isPySpace).reverse

/-- `re.split(r'\n{2,}', text)`: split `text` at every maximal run of two or
more consecutive newline characters.  `cur` is the text of the piece being
scanned so far and `nls` the number of consecutive newlines just seen. -/
def splitGo : Str → Nat → Str → List Str
  | cur, nls, [] =>
    if 2 ≤ nls then [cur, []] else [cur ++ List.replicate nls '\n']
  | cur, nls, c :: rest =>
    if c = '\n' then splitGo cur (nls + 1) rest
    else if 2 ≤ nls then cur :: splitGo [c] 0 rest
    else splitGo (cur ++ List.replicate nls '\n' ++ [c]) 0 rest

/-- `paragraphs = re.split(r'\n{2,}', text)` from
`split_document_into_chunks`. -/
def splitParas (text : Str) : List Str := splitGo [] 0 text

/-- `cleaned_paragraphs = [para.strip() for para in paragraphs if para.strip()]`. -/
def cleanedParagraphs (text : Str) : List Str :=
  ((splitParas text).map pyStrip).filter (fun p => decide (p ≠ []))

/-- The two-character paragraph separator `"\n\n"` reinserted between packed
paragraphs. -/
def paraSep : Str := ['\n', '\n']

/-- Join a list of strings with the `"\n\n"` separator (`"\n\n".join`). -/
def joinSep : List Str → Str
  | [] => []
  | [p] => p
  | p :: q :: ps => p ++ paraSep ++ joinSep (q :: ps)

/-- Join a list of strings with a single space (`" ".join`). -/
def joinSpace : List Str → Str
  | [] => []
  | [p] => p
  | p :: q :: ps => p ++ [' '] ++ joinSpace (q :: ps)

/-- The paragraph-packing loop of `split_document_into_chunks`: `current_chunk`
starts empty; a paragraph joins the current chunk when
`len(current_chunk) + len(para) + 2 ≤ max_chunk_size`, otherwise the current
chunk (if non-empty) is emitted (stripped) and the paragraph starts a new
chunk; a final non-empty chunk is flushed at the end. -/
def packParas (max_chunk_size : Nat) : List Str → Str → List Str
  | [], cur => if cur = [] then [] else [pyStrip cur]
  | para :: rest, cur =>
    if cur.length + para.length + 2 > max_chunk_size then
      (if cur = [] then [] else [pyStrip cur]) ++ packParas max_chunk_size rest para
    else
      packParas max_chunk_size rest (if cur = [] then para else cur ++ paraSep ++ para)

/-- `split_document_into_chunks(text, max_chunk_size)` from `testdocsum.py`:
return `[]` for empty text, otherwise split into paragraphs at runs of two or
more newlines, strip each paragraph, drop empty ones, and greedily pack the
cleaned paragraphs into chunks. -/
def split_document_into_chunks (text : Str) (max_chunk_size : Nat) : List Str :=
  if text = [] then [] else packParas max_chunk_size (cleanedParagraphs text) []

example : split_document_into_chunks "This is a paragraph.".toList 4000 =
    ["This is a paragraph.".toList] := by decide

example : split_document_into_chunks "This is a paragraph.\n\nAnother one.".toList 4000 =
    ["This is a paragraph.\n\nAnother one.".toList] := by decide

example : split_document_into_chunks "This is a paragraph.\n\nAnother one.".toList 10 =
    ["This is a paragraph.".toList, "Another one.".toList] := by decide

example : split_document_into_chunks ([] : Str) 4000 = [] := by decide

example : split_document_into_chunks "This is a paragraph.\n\n".toList 10 =
    ["This is a paragraph.".toList] := by decide

example : split_document_into_chunks "Short text".toList 10 = ["Short text".toList] := by
  decide

/-- Outcome of one `client.chat.completions.create(...)` call: either a chat
completion (identified with its `choices[0].message.content`), or one of the
exception classes that `groq_query` catches.  The message of a
`RateLimitError` / `BadRequestError` is the `str(e)` the code inspects. -/
inductive ApiResponse where
  | ok (content : Str)
  | internalServerError
  | rateLimitError (msg : Str)
  | badRequestError (msg : Str)
deriving DecidableEq

/-- The remote summarizer, as `groq_query` sees it: a deterministic oracle
from the submitted `input_text` to the outcome of the call. -/
abbrev Client := Str → ApiResponse

/-- Python's `'RMP' in error_message`. -/
def containsRMP : Str → Bool
  | [] => false
  | c :: rest => (decide (c = 'R' ∧ rest.take 2 = ['M', 'P'])) || containsRMP rest

example : containsRMP "Requests Per Minute (RMP) exceeded".toList = true := by decide
example : containsRMP "Tokens Per Minute (TPM) exceeded".toList = false := by decide

/-- The `for chunk in chunked_text` loop of `groq_query`: run the query `q`
on each chunk in order, collecting the message contents in order; a chunk
whose query never returns makes the whole loop never return (the later
chunks are not queried).  The second component collects the `time.sleep`
durations performed, in order. -/
def run_chunks (q : Str → Option Str × List Nat) : List Str → Option (List Str) × List Nat
  | [] => (some [], [])
  | chunk :: rest =>
    match q chunk with
    | (none, tr) => (none, tr)
    | (some chunk_txt, tr) =>
      match run_chunks q rest with
      | (none, tr2) => (none, tr ++ tr2)
      | (some txts, tr2) => (some (chunk_txt :: txts), tr ++ tr2)

/-- `groq_query(input_text, client, delay)` from `testdocsum.py`.

The result is the content of the returned chat completion; `none` means the
recursion-depth budget `fuel` was exhausted, i.e. the Python call does not
return within `fuel` nested recursive calls.  The second component is the
ordered list of `time.sleep` durations performed.  The source's recursive
calls `groq_query(input_text, client)` and `groq_query(chunk, client)` omit
the `delay` argument, so they run with the default `delay=5`, and the
recursive subdivision `split_document_into_chunks(input_text)` omits
`max_chunk_size`, so it uses the default `4000`; both defaults are written
explicitly below. -/
def groq_query (client : Client) : Nat → Str → Nat → Option Str × List Nat
  | 0, _, _ => (none, [])
  | fuel + 1, input_text, delay =>
    match client input_text with
    | .ok content => (some content, [])
    | .internalServerError =>
      let r := groq_query client fuel input_text 5
      (r.1, delay :: r.2)
    | .rateLimitError msg | .badRequestError msg =>
      if containsRMP msg then
        let r := groq_query client fuel input_text 5
        (r.1, delay :: r.2)
      else
        let chunked_text := split_document_into_chunks input_text 4000
        match run_chunks (fun chunk => groq_query client fuel chunk 5) chunked_text with
        | (none, tr) => (none, tr)
        | (some summarized_chunks, tr) =>
          let summarized_document := joinSpace summarized_chunks
          let r := groq_query client fuel summarized_document 5
          (r.1, tr ++ r.2)

example :
    groq_query (fun _ => ApiResponse.ok "ok".toList) 1 "hello".toList 5 =
      (some "ok".toList, []) := by decide

example :
    groq_query (fun _ => ApiResponse.internalServerError) 3 "hello".toList 7 =
      (none, [7, 5, 5]) := by decide

example :
    groq_query
      (fun t => if t = " hi".toList then ApiResponse.badRequestError "too large".toList
                else ApiResponse.ok "S".toList)
      2 " hi".toList 5 = (some "S".toList, []) := by decide

/-- Outcome of one `client.chat.completions.create(...)` call in
`v9docsumvim.py`: the code catches `InternalServerError` and
`BadRequestError`. -/
inductive Api9Response where
  | ok (content : Str)
  | internalServerError
  | badRequestError
deriving DecidableEq

/-- The remote summarizer as `v9docsumvim.summarize_chunk` sees it; the
first argument is the zero-based index of the attempt, so that a mock can
fail on every attempt or only on some. -/
abbrev Client9 := Nat → Str → Api9Response

/-- `RETRY_LIMIT = 3` from `v9docsumvim.py`. -/
def RETRY_LIMIT : Nat := 3

/-- The message of the exception `summarize_chunk` raises when the retry
budget is exhausted. -/
def v9_fail_msg : Str :=
  "Failed to get a response from the Groq API after multiple attempts.".toList

/-- The `while attempts < RETRY_LIMIT` loop of `v9docsumvim.summarize_chunk`,
written as a countdown over the remaining attempts (`remaining =
RETRY_LIMIT - attempts`); `idx` is the current value of `attempts`.  The
result is paired with the number of `client.chat.completions.create` calls
performed. -/
def summarize_chunk_loop (client : Client9) (chunk : Str) :
    Nat → Nat → Except Str Str × Nat
  | 0, _ => (.error v9_fail_msg, 0)
  | remaining + 1, idx =>
    match client idx chunk with
    | .ok content => (.ok content, 1)
    | .internalServerError | .badRequestError =>
      let r := summarize_chunk_loop client chunk remaining (idx + 1)
      (r.1, r.2 + 1)

/-- `summarize_chunk(chunk)` from `v9docsumvim.py`: retry on
`InternalServerError`/`BadRequestError` until `RETRY_LIMIT` attempts have
been made, then raise.  Returns the summary or the raised exception's
message, paired with the number of API calls performed. -/
def summarize_chunk (client : Client9) (chunk : Str) : Except Str Str × Nat :=
  summarize_chunk_loop client chunk RETRY_LIMIT 0

example :
    summarize_chunk (fun _ _ => Api9Response.internalServerError) "hi".toList =
      (.error v9_fail_msg, 3) := rfl

example :
    summarize_chunk (fun n _ => if n = 2 then Api9Response.ok "S".toList
                                else Api9Response.internalServerError) "hi".toList =
      (.ok "S".toList, 3) := rfl

/-- `split_document_into_chunks(text, chunk_size)` from
`old_code/v11docsumvim.py`, i.e. `[text[i:i+chunk_size] for i in
range(0, len(text), chunk_size)]`, written with an explicit step budget
(`text.length` steps always suffice for the `chunk_size ≥ 1` the script
uses). -/
def sliceChunksGo (chunk_size : Nat) : Nat → Str → List Str
  | _, [] => []
  | 0, _ => []
  | steps + 1, text => text.take chunk_size :: sliceChunksGo chunk_size steps (text.drop chunk_size)

/-- `v11docsumvim.split_document_into_chunks(text)` with its default
`chunk_size=5000`. -/
def v11_split_document_into_chunks (text : Str) (chunk_size : Nat) : List Str :=
  sliceChunksGo chunk_size text.length text

/-- The summarizer as the straight-line `v11docsumvim.py` script sees it: it
performs no error handling, so the oracle is a total function from the
submitted chunk to the returned message content. -/
abbrev Client11 := Str → Str

/-- The fixed text `f"This is a summary of the file '{filename}': "` that
`v11docsumvim.py` prepends to the joined summaries. -/
def v11_header (filename : Str) : Str :=
  "This is a summary of the file '".toList ++ filename ++ "': ".toList

/-- `final_summary` from `old_code/v11docsumvim.py` (lines 73-99): chunk the
text, obtain one summary per chunk from the client, and return the header
followed by `" ".join(summaries)` - with no final summarization pass. -/
def v11_final_summary (client : Client11) (filename text : Str) : Str :=
  v11_header filename ++
    joinSpace ((v11_split_document_into_chunks text 5000).map client)

example :
    v11_final_summary (fun _ => "S".toList) "f".toList "hi there".toList =
      "This is a summary of the file 'f': S".toList := by decide

/-! ### Properties of `pyStrip` -/

theorem dropWhile_head?_false {p : Char → Bool} {l : Str} {c : Char}
    (h : (l.dropWhile p).head? = some c) : p c = false := by
  induction l with
  | nil => simp [List.dropWhile_nil] at h
  | cons a t ih =>
    rw [List.dropWhile_cons] at h
    by_cases hp : p a = true
    · exact ih (by simpa [hp] using h)
    · rw [if_neg hp] at h
      rw [List.head?_cons, Option.some_inj] at h
      subst h
      simpa using hp

theorem getLast?_of_suffix {l m : Str} {c : Char} (h : l <:+ m)
    (hc : l.getLast? = some c) : m.getLast? = some c := by
  obtain ⟨t, rfl⟩ := h
  have hl : l ≠ [] := by rintro rfl; simp at hc
  rw [List.getLast?_append_of_ne_nil t hl, hc]

theorem pyStrip_head? {q : Str} {c : Char} (h : (pyStrip q).head? = some c) :
    isPySpace c = false := by
  unfold pyStrip at h
  rw [List.head?_reverse] at h
  have h2 : ((q.dropWhile isPySpace).reverse).getLast? = some c :=
    getLast?_of_suffix (List.dropWhile_suffix isPySpace) h
  rw [List.getLast?_reverse] at h2
  exact dropWhile_head?_false h2

theorem pyStrip_getLast? {q : Str} {c : Char} (h : (pyStrip q).getLast? = some c) :
    isPySpace c = false := by
  unfold pyStrip at h
  rw [List.getLast?_reverse] at h
  exact dropWhile_head?_false h

theorem dropWhile_eq_self_of_head {p : Char → Bool} {l : Str}
    (h : ∀ c, l.head? = some c → p c = false) : l.dropWhile p = l := by
  cases l with
  | nil => rfl
  | cons a t => simp [List.dropWhile_cons, h a rfl]

theorem pyStrip_eq_self {l : Str}
    (h1 : ∀ c, l.head? = some c → isPySpace c = false)
    (h2 : ∀ c, l.getLast? = some c → isPySpace c = false) : pyStrip l = l := by
  unfold pyStrip
  rw [dropWhile_eq_self_of_head h1]
  rw [dropWhile_eq_self_of_head (fun c hc => h2 c (by rwa [List.head?_reverse] at hc))]
  exact List.reverse_reverse l

theorem pyStrip_idem (q : Str) : pyStrip (pyStrip q) = pyStrip q :=
  pyStrip_eq_self (fun _ hc => pyStrip_head? hc) (fun _ hc => pyStrip_getLast? hc)

/-! ### Paragraphs contain no two consecutive newlines -/

/-- `l` has no two consecutive `'\n'` characters. -/
def noDoubleNL : Str → Bool
  | [] => true
  | [_] => true
  | a :: b :: rest => (!(a == '\n' && b == '\n')) && noDoubleNL (b :: rest)

theorem noDoubleNL_iff_chain' {l : Str} :
    noDoubleNL l = true ↔ List.Chain' (fun a b => ¬(a = '\n' ∧ b = '\n')) l := by
  induction l with
  | nil => simp [noDoubleNL]
  | cons a t ih =>
    cases t with
    | nil => simp [noDoubleNL]
    | cons b r =>
      rw [List.chain'_cons, ← ih]
      simp only [noDoubleNL, Bool.and_eq_true, Bool.not_eq_true']
      constructor
      · rintro ⟨h1, h2⟩
        refine ⟨?_, h2⟩
        rintro ⟨rfl, rfl⟩
        simp at h1
      · rintro ⟨h1, h2⟩
        refine ⟨?_, h2⟩
        by_contra hb
        simp only [Bool.and_eq_true, beq_iff_eq, Bool.not_eq_false] at hb
        exact h1 ⟨hb.1, hb.2⟩

theorem noDoubleNL_of_isInfix {l m : Str} (hm : noDoubleNL m = true) (h : l <:+: m) :
    noDoubleNL l = true := by
  rw [noDoubleNL_iff_chain'] at hm ⊢
  exact List.Chain'.infix hm h

theorem pyStrip_isInfix (q : Str) : pyStrip q <:+: q := by
  unfold pyStrip
  have h1 : q.dropWhile isPySpace <:+ q := List.dropWhile_suffix isPySpace
  have h2 : ((q.dropWhile isPySpace).reverse.dropWhile isPySpace).reverse <+:
      q.dropWhile isPySpace := by
    obtain ⟨t, ht⟩ :=
      List.dropWhile_suffix (l := (q.dropWhile isPySpace).reverse) isPySpace
    refine ⟨t.reverse, ?_⟩
    have h3 := congrArg List.reverse ht
    simpa [List.reverse_append] using h3
  exact List.IsInfix.trans h2.isInfix h1.isInfix

theorem noDoubleNL_pyStrip {q : Str} (h : noDoubleNL q = true) :
    noDoubleNL (pyStrip q) = true :=
  noDoubleNL_of_isInfix h (pyStrip_isInfix q)

/-- A cleaned paragraph: non-empty, fixed by `strip`, and containing no two
consecutive newlines (so `re.split(r'\n{2,}', ·)` cannot split it further). -/
def Clean (p : Str) : Prop := p ≠ [] ∧ pyStrip p = p ∧ noDoubleNL p = true

theorem clean_head_not_space {p : Str} {c : Char} (hs : pyStrip p = p)
    (h : p.head? = some c) : isPySpace c = false :=
  pyStrip_head? (by rw [hs]; exact h)

theorem clean_getLast_not_space {p : Str} {c : Char} (hs : pyStrip p = p)
    (h : p.getLast? = some c) : isPySpace c = false :=
  pyStrip_getLast? (by rw [hs]; exact h)

theorem clean_head_ne_nl {p : Str} {c : Char} (hs : pyStrip p = p)
    (h : p.head? = some c) : c ≠ '\n' := by
  intro hc
  subst hc
  simpa [isPySpace] using clean_head_not_space hs h

theorem clean_getLast_ne_nl {p : Str} {c : Char} (hs : pyStrip p = p)
    (h : p.getLast? = some c) : c ≠ '\n' := by
  intro hc
  subst hc
  simpa [isPySpace] using clean_getLast_not_space hs h

theorem noDoubleNL_append_single {cur : Str} {c : Char}
    (h : noDoubleNL cur = true) (hok : cur.getLast? = some '\n' → c ≠ '\n') :
    noDoubleNL (cur ++ [c]) = true := by
  rw [noDoubleNL_iff_chain'] at h ⊢
  rw [List.chain'_append]
  refine ⟨h, List.chain'_singleton c, ?_⟩
  intro x hx y hy
  simp only [List.head?_cons, Option.mem_def, Option.some_inj] at hy
  subst hy
  rintro ⟨hx', rfl⟩
  exact hok (by simpa [hx'] using hx) rfl

theorem splitGo_noDouble : ∀ (l cur : Str) (nls : Nat),
    noDoubleNL cur = true → cur.getLast? ≠ some '\n' →
    ∀ p ∈ splitGo cur nls l, noDoubleNL p = true := by
  intro l
  induction l with
  | nil =>
    intro cur nls hc hl p hp
    by_cases h2 : 2 ≤ nls
    · simp only [splitGo, if_pos h2, List.mem_cons, List.mem_singleton] at hp
      rcases hp with rfl | rfl | h
      · exact hc
      · rfl
      · simp at h
    · interval_cases nls
      · simp [splitGo] at hp
        subst hp
        exact hc
      · simp [splitGo] at hp
        subst hp
        exact noDoubleNL_append_single hc (fun h _ => hl h)
  | cons c rest ih =>
    intro cur nls hc hl p hp
    rw [splitGo] at hp
    by_cases hcn : c = '\n'
    · rw [if_pos hcn] at hp
      exact ih cur (nls + 1) hc hl p hp
    · rw [if_neg hcn] at hp
      by_cases h2 : 2 ≤ nls
      · rw [if_pos h2] at hp
        rcases List.mem_cons.mp hp with rfl | hp'
        · exact hc
        · exact ih [c] 0 rfl (by simp [List.getLast?]; exact fun h => hcn h) p hp'
      · rw [if_neg h2] at hp
        interval_cases nls
        · refine ih (cur ++ [] ++ [c]) 0 ?_ ?_ p hp
          · simpa using noDoubleNL_append_single hc (fun _ => hcn)
          · simp [List.getLast?_concat]
            exact fun h => hcn h
        · refine ih (cur ++ ['\n'] ++ [c]) 0 ?_ ?_ p hp
          · have h1 : noDoubleNL (cur ++ ['\n']) = true :=
              noDoubleNL_append_single hc (fun h => absurd h hl)
            have h2 : noDoubleNL ((cur ++ ['\n']) ++ [c]) = true :=
              noDoubleNL_append_single h1 (fun _ => hcn)
            simpa using h2
          · simp [List.getLast?_concat]
            exact fun h => hcn h

theorem cleanedParagraphs_clean {text : Str} :
    ∀ p ∈ cleanedParagraphs text, Clean p := by
  intro p hp
  rw [cleanedParagraphs, List.mem_filter] at hp
  obtain ⟨hmem, hne⟩ := hp
  rw [List.mem_map] at hmem
  obtain ⟨q, hq, rfl⟩ := hmem
  refine ⟨by simpa using hne, pyStrip_idem q, ?_⟩
  exact noDoubleNL_pyStrip (splitGo_noDouble text [] 0 rfl (by simp) q hq)

/-! ### Algebra of `joinSep` -/

theorem head?_append_of_ne_nil {l m : Str} (h : l ≠ []) : (l ++ m).head? = l.head? := by
  cases l with
  | nil => exact absurd rfl h
  | cons a t => rfl

theorem joinSep_cons {p : Str} {l : List Str} (h : l ≠ []) :
    joinSep (p :: l) = p ++ paraSep ++ joinSep l := by
  cases l with
  | nil => exact absurd rfl h
  | cons q r => rfl

theorem joinSep_glue {a b : Str} {l : List Str} :
    joinSep (a :: b :: l) = joinSep ((a ++ paraSep ++ b) :: l) := by
  cases l with
  | nil => rfl
  | cons c r =>
    rw [joinSep_cons (by simp), joinSep_cons (l := c :: r) (by simp),
      joinSep_cons (l := c :: r) (by simp)]
    simp [List.append_assoc]

theorem joinSep_cons_ne_nil {q : Str} {l : List Str} (h : q ≠ []) :
    joinSep (q :: l) ≠ [] := by
  cases l with
  | nil => exact h
  | cons x r =>
    rw [joinSep_cons (by simp)]
    cases q with
    | nil => exact absurd rfl h
    | cons a t => simp

theorem joinSep_head? {x : Str} {r : List Str} (h : x ≠ []) :
    (joinSep (x :: r)).head? = x.head? := by
  cases r with
  | nil => rfl
  | cons y t => rw [joinSep_cons (by simp), List.append_assoc, head?_append_of_ne_nil h]

theorem joinSep_snoc {q p : Str} {qs : List Str} :
    joinSep ((q :: qs) ++ [p]) = joinSep (q :: qs) ++ paraSep ++ p := by
  induction qs generalizing q with
  | nil => rfl
  | cons x r ih =>
    have h1 : joinSep (q :: x :: r ++ [p]) = q ++ paraSep ++ joinSep ((x :: r) ++ [p]) := by
      rw [List.cons_append, joinSep_cons (by simp)]
    rw [List.cons_append] at h1 ⊢
    rw [h1, ih, joinSep_cons (l := x :: r) (by simp)]
    simp [List.append_assoc]

theorem joinSep_head_not_space : ∀ (l : List Str), (∀ q ∈ l, Clean q) →
    ∀ c, (joinSep l).head? = some c → isPySpace c = false := by
  intro l hl c hc
  cases l with
  | nil => simp [joinSep] at hc
  | cons x r =>
    have hx := hl x (by simp)
    rw [joinSep_head? hx.1] at hc
    exact clean_head_not_space hx.2.1 hc

theorem joinSep_getLast_not_space : ∀ (l : List Str), (∀ q ∈ l, Clean q) →
    ∀ c, (joinSep l).getLast? = some c → isPySpace c = false := by
  intro l
  induction l with
  | nil => intro _ c hc; simp [joinSep] at hc
  | cons x r ih =>
    intro hl c hc
    cases r with
    | nil => exact clean_getLast_not_space (hl x (by simp)).2.1 hc
    | cons y t =>
      rw [joinSep_cons (by simp), List.append_assoc] at hc
      have hne : paraSep ++ joinSep (y :: t) ≠ [] := by simp [paraSep]
      rw [List.getLast?_append_of_ne_nil _ hne] at hc
      have hne2 : joinSep (y :: t) ≠ [] := joinSep_cons_ne_nil (hl y (by simp)).1
      rw [List.getLast?_append_of_ne_nil _ hne2] at hc
      exact ih (fun q hq => hl q (by simp [hq])) c hc

theorem pyStrip_joinSep {l : List Str} (h : ∀ q ∈ l, Clean q) :
    pyStrip (joinSep l) = joinSep l :=
  pyStrip_eq_self (joinSep_head_not_space l h) (joinSep_getLast_not_space l h)

theorem pyStrip_append_clean {cur p : Str} (hc : pyStrip cur = cur) (hne : cur ≠ [])
    (hp : Clean p) : pyStrip (cur ++ paraSep ++ p) = cur ++ paraSep ++ p := by
  refine pyStrip_eq_self ?_ ?_
  · intro c h
    rw [List.append_assoc, head?_append_of_ne_nil hne] at h
    exact clean_head_not_space hc h
  · intro c h
    rw [List.append_assoc] at h
    have hne1 : paraSep ++ p ≠ [] := by simp [paraSep]
    rw [List.getLast?_append_of_ne_nil _ hne1] at h
    rw [List.getLast?_append_of_ne_nil _ hp.1] at h
    exact clean_getLast_not_space hp.2.1 h

/-! ### The packing loop: chunk coverage -/

theorem packParas_ne_nil : ∀ (ps : List Str) (cur : Str) (s : Nat), cur ≠ [] →
    packParas s ps cur ≠ [] := by
  intro ps
  induction ps with
  | nil => intro cur s h; simp [packParas, h]
  | cons p rest ih =>
    intro cur s h
    rw [packParas]
    by_cases hgt : cur.length + p.length + 2 > s
    · rw [if_pos hgt, if_neg h]
      simp
    · rw [if_neg hgt, if_neg h]
      exact ih (cur ++ paraSep ++ p) s (by cases cur with | nil => exact absurd rfl h | cons a t => simp)

/-- Prepend `cur` to the paragraph worklist unless it is empty: the list of
paragraph texts still to be covered by the remaining output of the loop. -/
def optCons (cur : Str) (l : List Str) : List Str := if cur = [] then l else cur :: l

theorem packParas_joinSep : ∀ (ps : List Str) (cur : Str) (s : Nat),
    (∀ p ∈ ps, Clean p) → pyStrip cur = cur →
    joinSep (packParas s ps cur) = joinSep (optCons cur ps) := by
  intro ps
  induction ps with
  | nil =>
    intro cur s _ hcur
    by_cases h : cur = []
    · simp [packParas, optCons, h]
    · simp [packParas, optCons, h, hcur]
  | cons p rest ih =>
    intro cur s hclean hcur
    have hp : Clean p := hclean p (by simp)
    have hrest : ∀ x ∈ rest, Clean x := fun x hx => hclean x (by simp [hx])
    rw [packParas]
    by_cases hgt : cur.length + p.length + 2 > s
    · rw [if_pos hgt]
      by_cases h : cur = []
      · rw [if_pos h, List.nil_append, ih p s hrest hp.2.1]
        simp [optCons, h, hp.1]
      · rw [if_neg h]
        have hne : packParas s rest p ≠ [] := packParas_ne_nil rest p s hp.1
        rw [List.singleton_append, joinSep_cons hne, hcur, ih p s hrest hp.2.1]
        simp only [optCons, if_neg hp.1, if_neg h]
        exact (joinSep_cons (l := p :: rest) (by simp)).symm
    · rw [if_neg hgt]
      by_cases h : cur = []
      · rw [if_pos h, ih p s hrest hp.2.1]
        simp [optCons, h, hp.1]
      · rw [if_neg h,
          ih (cur ++ paraSep ++ p) s hrest (pyStrip_append_clean hcur h hp)]
        have hne : cur ++ paraSep ++ p ≠ [] := by
          cases cur with | nil => exact absurd rfl h | cons a t => simp
        simp only [optCons, if_neg hne, if_neg h]
        exact (joinSep_glue (l := rest)).symm

/-- **Chunk coverage core**: joining the chunks with `"\n\n"` reproduces the
joined cleaned paragraphs. -/
theorem split_chunks_cover (text : Str) (s : Nat) :
    joinSep (split_document_into_chunks text s) = joinSep (cleanedParagraphs text) := by
  rw [split_document_into_chunks]
  by_cases h : text = []
  · rw [if_pos h]
    subst h
    rfl
  · rw [if_neg h, packParas_joinSep (cleanedParagraphs text) [] s
      (fun p hp => cleanedParagraphs_clean p hp) rfl]
    rfl

/-! ### The packing loop: shape of an emitted chunk -/

/-- The packing conditions under which the loop merged the paragraphs `qs`,
in order, into a buffer that already held `cur`: every merge step passed the
`len(current_chunk) + len(para) + 2 ≤ max_chunk_size` test. -/
def packedExt (s : Nat) : Str → List Str → Prop
  | _, [] => True
  | cur, q :: qs => cur.length + q.length + 2 ≤ s ∧ packedExt s (cur ++ paraSep ++ q) qs

/-- A chunk as `packParas` emits it: the `"\n\n"`-join of a non-empty run of
paragraphs drawn from `P` (in order), merged under the packing conditions. -/
def ChunkFrom (s : Nat) (P : List Str) (c : Str) : Prop :=
  ∃ q qs, c = joinSep (q :: qs) ∧ q ∈ P ∧ (∀ x ∈ qs, x ∈ P) ∧ packedExt s q qs

theorem packedExt_snoc {s : Nat} : ∀ (qs : List Str) (q p : Str),
    packedExt s q qs → (joinSep (q :: qs)).length + p.length + 2 ≤ s →
    packedExt s q (qs ++ [p]) := by
  intro qs
  induction qs with
  | nil =>
    intro q p _ hlen
    exact ⟨hlen, trivial⟩
  | cons x r ih =>
    intro q p hpk hlen
    obtain ⟨h1, h2⟩ := hpk
    refine ⟨h1, ih (q ++ paraSep ++ x) p h2 ?_⟩
    rw [← joinSep_glue]
    exact hlen

theorem packedExt_length {s : Nat} : ∀ (qs : List Str) (q : Str),
    packedExt s q qs → qs ≠ [] → (joinSep (q :: qs)).length ≤ s := by
  intro qs
  induction qs with
  | nil => intro q _ h; exact absurd rfl h
  | cons x r ih =>
    intro q hpk _
    obtain ⟨h1, h2⟩ := hpk
    cases r with
    | nil =>
      simp only [joinSep, paraSep, List.length_append, List.length_cons, List.length_nil]
      omega
    | cons y t =>
      rw [joinSep_glue]
      exact ih (q ++ paraSep ++ x) h2 (by simp)

theorem packParas_chunks {s : Nat} {P : List Str} (hP : ∀ p ∈ P, Clean p) :
    ∀ (ps : List Str) (cur : Str),
    (∀ p ∈ ps, p ∈ P) → (cur = [] ∨ ChunkFrom s P cur) →
    ∀ c ∈ packParas s ps cur, ChunkFrom s P c := by
  intro ps
  induction ps with
  | nil =>
    intro cur hps hcur c hc
    rcases hcur with rfl | hspec
    · simp [packParas] at hc
    · obtain ⟨q, qs, rfl, hq, hqs, hpk⟩ := hspec
      have hclean : ∀ x ∈ q :: qs, Clean x := by
        intro x hx
        rcases List.mem_cons.mp hx with rfl | hx'
        · exact hP x hq
        · exact hP x (hqs x hx')
      have hne : joinSep (q :: qs) ≠ [] := joinSep_cons_ne_nil (hP q hq).1
      simp only [packParas, if_neg hne, List.mem_singleton] at hc
      subst hc
      rw [pyStrip_joinSep hclean]
      exact ⟨q, qs, rfl, hq, hqs, hpk⟩
  | cons p rest ih =>
    intro cur hps hcur c hc
    have hpP : p ∈ P := hps p (by simp)
    have hrest : ∀ x ∈ rest, x ∈ P := fun x hx => hps x (by simp [hx])
    have hchunkp : ChunkFrom s P p :=
      ⟨p, [], rfl, hpP, by simp, trivial⟩
    rw [packParas] at hc
    by_cases hgt : cur.length + p.length + 2 > s
    · rw [if_pos hgt] at hc
      rcases List.mem_append.mp hc with hc1 | hc2
      · rcases hcur with rfl | hspec
        · simp at hc1
        · obtain ⟨q, qs, rfl, hq, hqs, hpk⟩ := hspec
          have hclean : ∀ x ∈ q :: qs, Clean x := by
            intro x hx
            rcases List.mem_cons.mp hx with rfl | hx'
            · exact hP x hq
            · exact hP x (hqs x hx')
          have hne : joinSep (q :: qs) ≠ [] := joinSep_cons_ne_nil (hP q hq).1
          rw [if_neg hne, List.mem_singleton] at hc1
          subst hc1
          rw [pyStrip_joinSep hclean]
          exact ⟨q, qs, rfl, hq, hqs, hpk⟩
      · exact ih p hrest (Or.inr hchunkp) c hc2
    · rw [if_neg hgt] at hc
      rcases hcur with rfl | hspec
      · rw [if_pos rfl] at hc
        exact ih p hrest (Or.inr hchunkp) c hc
      · obtain ⟨q, qs, hj, hq, hqs, hpk⟩ := hspec
        have hne : cur ≠ [] := hj ▸ joinSep_cons_ne_nil (hP q hq).1
        rw [if_neg hne] at hc
        refine ih (cur ++ paraSep ++ p) hrest (Or.inr ⟨q, qs ++ [p], ?_, hq, ?_, ?_⟩) c hc
        · rw [← List.cons_append, joinSep_snoc, ← hj]
        · intro x hx
          rcases List.mem_append.mp hx with hx' | hx'
          · exact hqs x hx'
          · rw [List.mem_singleton] at hx'
            subst hx'
            exact hpP
        · refine packedExt_snoc qs q p hpk ?_
          rw [← hj]
          omega

/-! ### Chunks are fixed points of chunking -/

theorem noDoubleNL_tail {a : Char} {l : Str} (h : noDoubleNL (a :: l) = true) :
    noDoubleNL l = true := by
  cases l with
  | nil => rfl
  | cons b r =>
    simp only [noDoubleNL, Bool.and_eq_true] at h
    exact h.2

theorem noDoubleNL_pair {a b : Char} {l : Str} (h : noDoubleNL (a :: b :: l) = true) :
    ¬(a = '\n' ∧ b = '\n') := by
  simp only [noDoubleNL, Bool.and_eq_true, Bool.not_eq_true'] at h
  rintro ⟨rfl, rfl⟩
  simp at h

/-- Scanning a paragraph with no double newline and no trailing newline just
accumulates it into the current piece. -/
theorem splitGo_through : ∀ (q : Str), noDoubleNL q = true → q.getLast? ≠ some '\n' →
    ∀ (cur t : Str), splitGo cur 0 (q ++ t) = splitGo (cur ++ q) 0 t
  | [], _, _, cur, t => by simp
  | [c], _, h2, cur, t => by
    have hc : c ≠ '\n' := by
      intro h
      exact h2 (by simp [h])
    rw [List.singleton_append, splitGo, if_neg hc, if_neg (by omega)]
    simp
  | c1 :: c2 :: q', h1, h2, cur, t => by
    by_cases hc1 : c1 = '\n'
    · subst hc1
      have hc2 : c2 ≠ '\n' := fun h => noDoubleNL_pair h1 ⟨rfl, h⟩
      rw [List.cons_append, splitGo, if_pos rfl, List.cons_append, splitGo,
        if_neg hc2, if_neg (by omega)]
      have hrec := splitGo_through q' (noDoubleNL_tail (noDoubleNL_tail h1))
        (fun h => h2 (by
          cases q' with
          | nil => simp at h
          | cons x r => rw [List.getLast?_cons_cons, List.getLast?_cons_cons]; exact h))
        (cur ++ List.replicate 1 '\n' ++ [c2]) t
      rw [hrec]
      congr 1
      simp [List.append_assoc]
    · have hrec := splitGo_through (c2 :: q') (noDoubleNL_tail h1)
        (fun h => h2 (by rw [List.getLast?_cons_cons]; exact h))
        (cur ++ [c1]) t
      rw [List.cons_append, splitGo, if_neg hc1, if_neg (by omega)]
      simp only [List.replicate_zero, List.append_nil, List.nil_append]
      rw [List.cons_append] at hrec ⊢
      rw [hrec]
      congr 1
      simp [List.append_assoc]

/-- Splitting the `"\n\n"`-join of cleaned paragraphs recovers exactly the
paragraphs. -/
theorem splitParas_joinSep : ∀ (l : List Str), (∀ q ∈ l, Clean q) → l ≠ [] →
    splitParas (joinSep l) = l := by
  intro l
  induction l with
  | nil => intro _ h; exact absurd rfl h
  | cons q r ih =>
    intro hclean _
    have hq : Clean q := hclean q (by simp)
    have hql : q.getLast? ≠ some '\n' := fun h => clean_getLast_ne_nl hq.2.1 h rfl
    cases r with
    | nil =>
      have h := splitGo_through q hq.2.2 hql [] []
      rw [List.append_nil, List.nil_append] at h
      rw [splitParas, joinSep, h]
      simp [splitGo]
    | cons x r' =>
      have hx : Clean x := hclean x (by simp)
      rw [joinSep_cons (by simp)]
      rw [List.append_assoc, splitParas, splitGo_through q hq.2.2 hql [] _,
        List.nil_append]
      obtain ⟨a, M', hM⟩ : ∃ a M', joinSep (x :: r') = a :: M' := by
        cases hM0 : joinSep (x :: r') with
        | nil => exact absurd hM0 (joinSep_cons_ne_nil hx.1)
        | cons a M' => exact ⟨a, M', rfl⟩
      have ha : a ≠ '\n' := by
        have := joinSep_head? (r := r') hx.1
        rw [hM] at this
        obtain ⟨b, x', rfl⟩ : ∃ b x', x = b :: x' := by
          cases x with
          | nil => exact absurd rfl hx.1
          | cons b x' => exact ⟨b, x', rfl⟩
        simp only [List.head?_cons, Option.some_inj] at this
        subst this
        exact clean_head_ne_nl hx.2.1 rfl
      rw [hM, paraSep]
      show splitGo q 0 ('\n' :: '\n' :: a :: M') = q :: x :: r'
      rw [splitGo, if_pos rfl, splitGo, if_pos rfl, splitGo, if_neg ha,
        if_pos (show 2 ≤ 0 + 1 + 1 by omega)]
      have hr : splitGo [a] 0 M' = x :: r' := by
        have h0 := ih (fun p hp => hclean p (by simp [hp])) (by simp)
        rw [splitParas, hM] at h0
        rw [splitGo, if_neg ha, if_neg (show ¬ 2 ≤ 0 by omega)] at h0
        simpa using h0
      rw [hr]

theorem packParas_single {s : Nat} {q : Str} (hne : q ≠ []) (hs : pyStrip q = q) :
    packParas s [q] [] = [q] := by
  rw [packParas]
  by_cases hgt : ([] : Str).length + q.length + 2 > s
  · rw [if_pos hgt, if_pos rfl, packParas, if_neg hne, hs]
    rfl
  · rw [if_neg hgt, if_pos rfl, packParas, if_neg hne, hs]

theorem packParas_packed {s : Nat} : ∀ (qs : List Str) (cur : Str),
    (∀ x ∈ qs, Clean x) → cur ≠ [] → pyStrip cur = cur → packedExt s cur qs →
    packParas s qs cur = [joinSep (cur :: qs)] := by
  intro qs
  induction qs with
  | nil =>
    intro cur _ hne hs _
    rw [packParas, if_neg hne, hs]
    rfl
  | cons p rest ih =>
    intro cur hclean hne hs hpk
    obtain ⟨h1, h2⟩ := hpk
    have hp : Clean p := hclean p (by simp)
    rw [packParas, if_neg (by omega), if_neg hne]
    rw [ih (cur ++ paraSep ++ p) (fun x hx => hclean x (by simp [hx]))
      (by cases cur with | nil => exact absurd rfl hne | cons a t => simp)
      (pyStrip_append_clean hs hne hp) h2]
    rw [joinSep_glue]

/-- A chunk with the shape `packParas` emits is a fixed point of
`split_document_into_chunks`. -/
theorem chunkFrom_fixed {s : Nat} {P : List Str} (hP : ∀ p ∈ P, Clean p) {c : Str}
    (h : ChunkFrom s P c) : split_document_into_chunks c s = [c] := by
  obtain ⟨q, qs, rfl, hq, hqs, hpk⟩ := h
  have hclean : ∀ x ∈ q :: qs, Clean x := by
    intro x hx
    rcases List.mem_cons.mp hx with rfl | hx'
    · exact hP x hq
    · exact hP x (hqs x hx')
  have hne : joinSep (q :: qs) ≠ [] := joinSep_cons_ne_nil (hP q hq).1
  rw [split_document_into_chunks, if_neg hne]
  have hmap : List.map pyStrip (q :: qs) = q :: qs :=
    calc List.map pyStrip (q :: qs) = List.map id (q :: qs) :=
          List.map_congr_left (fun x hx => (hclean x hx).2.1)
      _ = q :: qs := List.map_id _
  have hparas : cleanedParagraphs (joinSep (q :: qs)) = q :: qs := by
    rw [cleanedParagraphs, splitParas_joinSep (q :: qs) hclean (by simp), hmap]
    rw [List.filter_eq_self.mpr (fun x hx => by simp [(hclean x hx).1])]
  rw [hparas]
  cases qs with
  | nil => exact packParas_single (hP q hq).1 (hP q hq).2.1
  | cons x r =>
    obtain ⟨h1, h2⟩ := hpk
    rw [packParas, if_neg (by simp only [List.length_nil]; omega), if_pos rfl]
    exact packParas_packed (x :: r) q (fun y hy => hclean y (by simp [hy]))
      (hP q hq).1 (hP q hq).2.1 ⟨h1, h2⟩

/-! ### One-step behaviour of `groq_query` -/

theorem groq_query_ok {client : Client} {text content : Str} {delay : Nat}
    (h : client text = .ok content) (fuel : Nat) :
    groq_query client (fuel + 1) text delay = (some content, []) := by
  rw [groq_query, h]

theorem groq_query_ise {client : Client} {text : Str} {delay : Nat}
    (h : client text = .internalServerError) (fuel : Nat) :
    groq_query client (fuel + 1) text delay =
      ((groq_query client fuel text 5).1, delay :: (groq_query client fuel text 5).2) := by
  rw [groq_query, h]

theorem groq_query_rmp {client : Client} {text msg : Str} {delay : Nat}
    (h : client text = .rateLimitError msg ∨ client text = .badRequestError msg)
    (hr : containsRMP msg = true) (fuel : Nat) :
    groq_query client (fuel + 1) text delay =
      ((groq_query client fuel text 5).1, delay :: (groq_query client fuel text 5).2) := by
  rcases h with h | h <;> rw [groq_query, h] <;> simp [hr]

theorem groq_query_split {client : Client} {text msg : Str} {delay : Nat}
    (h : client text = .rateLimitError msg ∨ client text = .badRequestError msg)
    (hr : containsRMP msg = false) (fuel : Nat) :
    groq_query client (fuel + 1) text delay =
      (match run_chunks (fun chunk => groq_query client fuel chunk 5)
          (split_document_into_chunks text 4000) with
       | (none, tr) => (none, tr)
       | (some ss, tr) =>
         ((groq_query client fuel (joinSpace ss) 5).1,
           tr ++ (groq_query client fuel (joinSpace ss) 5).2)) := by
  rcases h with h | h <;> rw [groq_query, h] <;> simp [hr]

/-- Every summary `groq_query` returns is the content of some successful
remote call. -/
theorem groq_success_source : ∀ (fuel : Nat) (client : Client) (text : Str) (delay : Nat)
    (sm : Str), (groq_query client fuel text delay).1 = some sm →
    ∃ t, client t = .ok sm := by
  intro fuel
  induction fuel with
  | zero =>
    intro client text delay sm h
    simp [groq_query] at h
  | succ fuel ih =>
    intro client text delay sm h
    cases hct : client text with
    | ok content =>
      rw [groq_query_ok hct fuel] at h
      simp only [Option.some_inj] at h
      exact ⟨text, by rw [hct, h]⟩
    | internalServerError =>
      rw [groq_query_ise hct fuel] at h
      exact ih client text 5 sm h
    | rateLimitError msg =>
      by_cases hr : containsRMP msg = true
      · rw [groq_query_rmp (Or.inl hct) hr fuel] at h
        exact ih client text 5 sm h
      · rw [groq_query_split (Or.inl hct) (by simpa using hr) fuel] at h
        cases hrc : run_chunks (fun chunk => groq_query client fuel chunk 5)
            (split_document_into_chunks text 4000) with
        | mk res tr =>
          rw [hrc] at h
          cases res with
          | none => simp at h
          | some ss => exact ih client (joinSpace ss) 5 sm h
    | badRequestError msg =>
      by_cases hr : containsRMP msg = true
      · rw [groq_query_rmp (Or.inr hct) hr fuel] at h
        exact ih client text 5 sm h
      · rw [groq_query_split (Or.inr hct) (by simpa using hr) fuel] at h
        cases hrc : run_chunks (fun chunk => groq_query client fuel chunk 5)
            (split_document_into_chunks text 4000) with
        | mk res tr =>
          rw [hrc] at h
          cases res with
          | none => simp at h
          | some ss => exact ih client (joinSpace ss) 5 sm h

/-- Against a client whose answer for `text` is always an internal server
error, `groq_query` makes no progress at any recursion depth: the Python
original retries forever. -/
theorem groq_ise_diverges : ∀ (fuel : Nat) (client : Client) (text : Str) (d : Nat),
    client text = .internalServerError → (groq_query client fuel text d).1 = none := by
  intro fuel
  induction fuel with
  | zero => intro client text d _; rfl
  | succ fuel ih =>
    intro client text d h
    rw [groq_query_ise h fuel]
    exact ih client text 5 h

/-- With an always-internal-server-error client the retry trace grows with
the recursion depth: one sleep per attempt, without bound. -/
theorem groq_ise_trace_length : ∀ (fuel : Nat) (client : Client) (text : Str) (d : Nat),
    client text = .internalServerError → (groq_query client fuel text d).2.length = fuel := by
  intro fuel
  induction fuel with
  | zero => intro client text d _; rfl
  | succ fuel ih =>
    intro client text d h
    rw [groq_query_ise h fuel]
    simp [ih client text 5 h]

/-- Against a client that classifies `text` as oversized (a non-`'RMP'`
rate-limit or bad-request error), when chunking returns `text` itself —
i.e. `text` is a single irreducible paragraph — `groq_query` makes no
progress at any recursion depth: the Python original recurses forever
instead of surfacing an explicit failure. -/
theorem groq_reject_diverges : ∀ (fuel : Nat) (client : Client) (text msg : Str) (d : Nat),
    (client text = .rateLimitError msg ∨ client text = .badRequestError msg) →
    containsRMP msg = false →
    split_document_into_chunks text 4000 = [text] →
    (groq_query client fuel text d).1 = none := by
  intro fuel
  induction fuel with
  | zero => intro client text msg d _ _ _; rfl
  | succ fuel ih =>
    intro client text msg d h hr hsplit
    rw [groq_query_split h hr fuel, hsplit]
    have hq : (groq_query client fuel text 5).1 = none := ih client text msg 5 h hr hsplit
    cases hq0 : groq_query client fuel text 5 with
    | mk r tr =>
      rw [hq0] at hq
      simp only at hq
      subst hq
      simp [run_chunks, hq0]

/-! ### Trace and ordering facts -/

theorem run_chunks_trace {q : Str → Option Str × List Nat}
    (hq : ∀ t, ∀ x ∈ (q t).2, x = 5) :
    ∀ (cs : List Str), ∀ x ∈ (run_chunks q cs).2, x = 5 := by
  intro cs
  induction cs with
  | nil => intro x hx; simp [run_chunks] at hx
  | cons chunk rest ih =>
    intro x hx
    rw [run_chunks] at hx
    cases hq0 : q chunk with
    | mk r tr =>
      cases r with
      | none =>
        rw [hq0] at hx
        exact hq chunk x (by rw [hq0]; exact hx)
      | some s0 =>
        rw [hq0] at hx
        cases hrc : run_chunks q rest with
        | mk r2 tr2 =>
          rw [hrc] at hx
          cases r2 with
          | none =>
            simp only [List.mem_append] at hx
            rcases hx with hx | hx
            · exact hq chunk x (by rw [hq0]; exact hx)
            · exact ih x (by rw [hrc]; exact hx)
          | some ls =>
            simp only [List.mem_append] at hx
            rcases hx with hx | hx
            · exact hq chunk x (by rw [hq0]; exact hx)
            · exact ih x (by rw [hrc]; exact hx)

/-- Every sleep performed by a `groq_query` started with the default
`delay=5` lasts 5 seconds. -/
theorem groq_trace_five : ∀ (fuel : Nat) (client : Client) (text : Str),
    ∀ x ∈ (groq_query client fuel text 5).2, x = 5 := by
  intro fuel
  induction fuel with
  | zero => intro client text x hx; simp [groq_query] at hx
  | succ fuel ih =>
    intro client text x hx
    have step : ∀ msg, (client text = .rateLimitError msg ∨
        client text = .badRequestError msg) → containsRMP msg = false → x = 5 := by
      intro msg h hr
      rw [groq_query_split h hr fuel] at hx
      cases hrc : run_chunks (fun chunk => groq_query client fuel chunk 5)
          (split_document_into_chunks text 4000) with
      | mk res tr =>
        rw [hrc] at hx
        have htr : ∀ y ∈ tr, y = 5 := by
          intro y hy
          exact run_chunks_trace (fun t => ih client t) _ y (by rw [hrc]; exact hy)
        cases res with
        | none => exact htr x hx
        | some ss =>
          simp only [List.mem_append] at hx
          rcases hx with hx | hx
          · exact htr x hx
          · exact ih client (joinSpace ss) x hx
    cases hct : client text with
    | ok content =>
      rw [groq_query_ok hct fuel] at hx
      simp at hx
    | internalServerError =>
      rw [groq_query_ise hct fuel] at hx
      rcases List.mem_cons.mp hx with rfl | hx'
      · rfl
      · exact ih client text x hx'
    | rateLimitError msg =>
      by_cases hr : containsRMP msg = true
      · rw [groq_query_rmp (Or.inl hct) hr fuel] at hx
        rcases List.mem_cons.mp hx with rfl | hx'
        · rfl
        · exact ih client text x hx'
      · exact step msg (Or.inl hct) (by simpa using hr)
    | badRequestError msg =>
      by_cases hr : containsRMP msg = true
      · rw [groq_query_rmp (Or.inr hct) hr fuel] at hx
        rcases List.mem_cons.mp hx with rfl | hx'
        · rfl
        · exact ih client text x hx'
      · exact step msg (Or.inr hct) (by simpa using hr)

/-- Successful `run_chunks` results pair each chunk, in order, with exactly
one summary. -/
theorem run_chunks_res {q : Str → Option Str × List Nat} :
    ∀ (cs : List Str) (ss : List Str), (run_chunks q cs).1 = some ss →
    ss.length = cs.length ∧ ∀ i (hi : i < cs.length) (hi' : i < ss.length),
      (q (cs.get ⟨i, hi⟩)).1 = some (ss.get ⟨i, hi'⟩) := by
  intro cs
  induction cs with
  | nil =>
    intro ss h
    simp only [run_chunks, Option.some_inj] at h
    subst h
    exact ⟨rfl, fun i hi _ => absurd hi (by simp)⟩
  | cons chunk rest ih =>
    intro ss h
    rw [run_chunks] at h
    cases hq0 : q chunk with
    | mk r tr =>
      rw [hq0] at h
      cases r with
      | none => simp at h
      | some s0 =>
        cases hrc : run_chunks q rest with
        | mk r2 tr2 =>
          rw [hrc] at h
          cases r2 with
          | none => simp at h
          | some ls =>
            simp only [Option.some_inj] at h
            subst h
            have hres : (run_chunks q rest).1 = some ls := by rw [hrc]
            obtain ⟨hlen, hidx⟩ := ih ls hres
            refine ⟨by simp [hlen], ?_⟩
            intro i hi hi'
            cases i with
            | zero => simpa using congrArg Prod.fst hq0
            | succ j =>
              exact hidx j (by simpa using hi) (by simpa using hi')

theorem summarize_chunk_loop_fail : ∀ (n idx : Nat) (client : Client9) (chunk : Str),
    (∀ i, client i chunk = .internalServerError) →
    summarize_chunk_loop client chunk n idx = (.error v9_fail_msg, n) := by
  intro n
  induction n with
  | zero => intro idx client chunk _; rfl
  | succ n ih =>
    intro idx client chunk h
    rw [summarize_chunk_loop, h idx, ih (idx + 1) client chunk h]

theorem chunkFrom_bound {s : Nat} {P : List Str} {c : Str}
    (h : ChunkFrom s P c) : c.length ≤ s ∨ (c ∈ P ∧ s < c.length) := by
  obtain ⟨q, qs, rfl, hq, hqs, hpk⟩ := h
  cases qs with
  | nil =>
    by_cases hle : (joinSep [q]).length ≤ s
    · exact Or.inl hle
    · exact Or.inr ⟨hq, by omega⟩
  | cons x r => exact Or.inl (packedExt_length (x :: r) q hpk (by simp))

/-- "the invocation never returns": for every recursion-depth budget the
modelled `groq_query` has neither produced a summary nor raised anything the
caller could see — the Python call loops/recurses without bound. -/
def neverReturns (client : Client) (text : Str) (delay : Nat) : Prop :=
  ∀ fuel, (groq_query client fuel text delay).1 = none

/-! ### The claims -/

/-- **C1.** For an input that is a single irreducible paragraph
(`split_document_into_chunks text 4000 = [text]`) which the remote
summarizer persistently rejects as too large, `groq_query` never terminates
with an explicit unrecoverable failure: at every recursion depth it is still
recursing (subdividing the paragraph into itself), so the Python original
recurses until the interpreter's recursion limit crashes it.  This theorem
evaluates the code at the claim's failing input and contradicts the claimed
explicit-failure behaviour. -/
theorem C1_irreducible_oversize_diverges (fuel : Nat) (client : Client) (text msg : Str)
    (h : client text = .badRequestError msg) (hr : containsRMP msg = false)
    (hs : split_document_into_chunks text 4000 = [text]) :
    (groq_query client fuel text 5).1 = none :=
  groq_reject_diverges fuel client text msg 5 (Or.inr h) hr hs

theorem C1_witness :
    ((fun _ => ApiResponse.badRequestError "Request too large".toList : Client)
        "aaaaaaaaaa".toList = ApiResponse.badRequestError "Request too large".toList) ∧
    containsRMP "Request too large".toList = false ∧
    split_document_into_chunks "aaaaaaaaaa".toList 4000 = ["aaaaaaaaaa".toList] ∧
    (groq_query (fun _ => ApiResponse.badRequestError "Request too large".toList) 25
        "aaaaaaaaaa".toList 5).1 = none :=
  ⟨rfl, by decide, by decide,
    C1_irreducible_oversize_diverges 25 _ _ _ rfl (by decide) (by decide)⟩

/-- **C2** (amended).  The retry-bounded variant
`v9docsumvim.summarize_chunk` does fail with an explicit error after exactly
`RETRY_LIMIT = 3` attempts against a summarizer that always reports a
transient fault; `testdocsum.groq_query`, by contrast, has no retry bound at
all (see the counterexample). -/
theorem C2_v9_retry_bound (client : Client9) (chunk : Str)
    (h : ∀ i, client i chunk = .internalServerError) :
    summarize_chunk client chunk = (.error v9_fail_msg, RETRY_LIMIT) :=
  summarize_chunk_loop_fail RETRY_LIMIT 0 client chunk h

theorem C2_witness :
    summarize_chunk (fun _ _ => Api9Response.internalServerError) "x".toList =
      (.error v9_fail_msg, RETRY_LIMIT) :=
  C2_v9_retry_bound (fun _ _ => Api9Response.internalServerError) "x".toList (fun _ => rfl)

/-- **C2** (counterexample).  Against a remote summarizer that reports a
transient internal fault on every attempt, `testdocsum.groq_query` never
fails with an unrecoverable error: it never returns at all, sleeping 5
seconds between attempts without bound (after 4 attempts it has slept 4
times and is still going — well past `RETRY_LIMIT = 3`, the only configured
retry count in the repository). -/
theorem C2_counterexample :
    neverReturns (fun _ => ApiResponse.internalServerError) "hi".toList 5 ∧
    (groq_query (fun _ => ApiResponse.internalServerError) 4 "hi".toList 5).2 =
      [5, 5, 5, 5] :=
  ⟨fun fuel => groq_ise_diverges fuel _ _ 5 rfl, by decide⟩

/-- **C3** (amended).  Every summary `groq_query` returns is exactly the
content of some successful remote call — which may be the empty string; and
the function has no explicit unrecoverable-error outcome: apart from
returning such a content it can only fail to terminate. -/
theorem C3_success_from_remote_call (fuel : Nat) (client : Client) (text : Str)
    (delay : Nat) (sm : Str) (h : (groq_query client fuel text delay).1 = some sm) :
    ∃ t, client t = .ok sm :=
  groq_success_source fuel client text delay sm h

theorem C3_witness :
    (groq_query (fun _ => ApiResponse.ok "s".toList) 1 "hi".toList 5).1 =
      some "s".toList ∧
    ∃ t, (fun _ => ApiResponse.ok "s".toList : Client) t = ApiResponse.ok "s".toList :=
  ⟨rfl, C3_success_from_remote_call 1 (fun _ => ApiResponse.ok "s".toList)
    "hi".toList 5 "s".toList rfl⟩

/-- **C3** (counterexample).  A remote summarizer that successfully returns
the empty string makes `groq_query` return an empty summary: the claimed
contract "non-empty summary or explicit unrecoverable error" does not hold
on the code. -/
theorem C3_counterexample :
    (groq_query (fun _ => ApiResponse.ok []) 1 "hi".toList 5).1 = some [] := by
  decide

/-- **C4.** A failure classified as call-frequency rate limiting (`'RMP'` in
the error text) makes `groq_query` sleep for the caller's `delay` and
re-attempt with exactly the same text — no subdivision; a transient internal
server error likewise retries the same text; and the recursive
subdivide-and-recombine path is taken exactly for the remaining
(payload/volume oversize) rate-limit and bad-request failures. -/
theorem C4_rmp_same_text_no_subdivision (client : Client) (fuel : Nat) (text msg : Str)
    (delay : Nat) :
    ((client text = .rateLimitError msg ∨ client text = .badRequestError msg) →
      containsRMP msg = true →
      groq_query client (fuel + 1) text delay =
        ((groq_query client fuel text 5).1, delay :: (groq_query client fuel text 5).2)) ∧
    (client text = .internalServerError →
      groq_query client (fuel + 1) text delay =
        ((groq_query client fuel text 5).1, delay :: (groq_query client fuel text 5).2)) ∧
    ((client text = .rateLimitError msg ∨ client text = .badRequestError msg) →
      containsRMP msg = false →
      groq_query client (fuel + 1) text delay =
        (match run_chunks (fun chunk => groq_query client fuel chunk 5)
            (split_document_into_chunks text 4000) with
         | (none, tr) => (none, tr)
         | (some ss, tr) =>
           ((groq_query client fuel (joinSpace ss) 5).1,
             tr ++ (groq_query client fuel (joinSpace ss) 5).2))) :=
  ⟨fun h hr => groq_query_rmp h hr fuel,
   fun h => groq_query_ise h fuel,
   fun h hr => groq_query_split h hr fuel⟩

theorem C4_witness :
    groq_query (fun _ => ApiResponse.rateLimitError "RMP reached".toList) 3
        "hi".toList 9 =
      ((groq_query (fun _ => ApiResponse.rateLimitError "RMP reached".toList) 2
          "hi".toList 5).1,
        9 :: (groq_query (fun _ => ApiResponse.rateLimitError "RMP reached".toList) 2
          "hi".toList 5).2) :=
  (C4_rmp_same_text_no_subdivision (fun _ => ApiResponse.rateLimitError
      "RMP reached".toList) 2 "hi".toList "RMP reached".toList 9).1
    (Or.inl rfl) (by decide)

/-- **C5.** Joining the chunks with the restored `"\n\n"` separator
reproduces the cleaned paragraph content (split on two-or-more newlines,
stripped, empties dropped) joined by the same separator, in order; and an
empty document yields no chunks. -/
theorem C5_chunk_coverage : ∀ (text : Str) (s : Nat),
    joinSep (split_document_into_chunks text s) = joinSep (cleanedParagraphs text) ∧
    split_document_into_chunks ([] : Str) s = [] :=
  fun text s => ⟨split_chunks_cover text s, rfl⟩

/-- **C6.** Every chunk respects the size bound, except that an emitted
chunk may exceed `s` only by being exactly one cleaned source paragraph
(emitted unmodified) whose own length exceeds `s`. -/
theorem C6_chunk_bound : ∀ (text : Str) (s : Nat), ∀ c ∈ split_document_into_chunks text s,
    c.length ≤ s ∨ (c ∈ cleanedParagraphs text ∧ s < c.length) := by
  intro text s c hc
  rw [split_document_into_chunks] at hc
  by_cases h : text = []
  · rw [if_pos h] at hc
    simp at hc
  · rw [if_neg h] at hc
    exact chunkFrom_bound
      (packParas_chunks (fun p hp => cleanedParagraphs_clean p hp)
        (cleanedParagraphs text) [] (fun p hp => hp) (Or.inl rfl) c hc)

theorem C6_witness :
    "aaa".toList ∈ split_document_into_chunks "aaa".toList 1 ∧
    ("aaa".toList.length ≤ 1 ∨
      ("aaa".toList ∈ cleanedParagraphs "aaa".toList ∧ 1 < "aaa".toList.length)) :=
  ⟨by decide, C6_chunk_bound "aaa".toList 1 "aaa".toList (by decide)⟩

/-- **C7.** On the subdivision path, the outcome is obtained by querying
every chunk in the order the chunker produced them — each chunk contributing
exactly one summary, none dropped or reordered — and then querying the
joined summaries; this holds at every recursion depth `fuel`. -/
theorem C7_order_preservation (client : Client) (fuel : Nat) (text msg : Str) (delay : Nat)
    (h : client text = .rateLimitError msg ∨ client text = .badRequestError msg)
    (hr : containsRMP msg = false) :
    ((groq_query client (fuel + 1) text delay).1 =
      (run_chunks (fun chunk => groq_query client fuel chunk 5)
          (split_document_into_chunks text 4000)).1.bind
        (fun ss => (groq_query client fuel (joinSpace ss) 5).1)) ∧
    ∀ ss, (run_chunks (fun chunk => groq_query client fuel chunk 5)
        (split_document_into_chunks text 4000)).1 = some ss →
      ss.length = (split_document_into_chunks text 4000).length ∧
      ∀ i (hi : i < (split_document_into_chunks text 4000).length)
        (hi' : i < ss.length),
        (groq_query client fuel ((split_document_into_chunks text 4000).get ⟨i, hi⟩) 5).1 =
          some (ss.get ⟨i, hi'⟩) := by
  constructor
  · rw [groq_query_split h hr fuel]
    cases hrc : run_chunks (fun chunk => groq_query client fuel chunk 5)
        (split_document_into_chunks text 4000) with
    | mk res tr =>
      cases res with
      | none => rfl
      | some ss => rfl
  · intro ss hss
    exact run_chunks_res (split_document_into_chunks text 4000) ss hss

theorem C7_witness :
    (groq_query (fun t => if t = " hi".toList then ApiResponse.badRequestError "big".toList
        else ApiResponse.ok "s".toList) 2 " hi".toList 5).1 =
      (run_chunks (fun chunk => groq_query (fun t => if t = " hi".toList then
          ApiResponse.badRequestError "big".toList else ApiResponse.ok "s".toList) 1 chunk 5)
          (split_document_into_chunks " hi".toList 4000)).1.bind
        (fun ss => (groq_query (fun t => if t = " hi".toList then
          ApiResponse.badRequestError "big".toList else ApiResponse.ok "s".toList) 1
          (joinSpace ss) 5).1) :=
  (C7_order_preservation (fun t => if t = " hi".toList then
      ApiResponse.badRequestError "big".toList else ApiResponse.ok "s".toList) 1
    " hi".toList "big".toList 5 (Or.inr (by decide)) (by decide)).1

/-- **C8** (amended).  In `testdocsum.groq_query` (lines 285-295) the
subdivision path never returns the joined per-chunk summaries directly: it
always submits the recombined text to another resilient `groq_query` call
and returns that call's result.  The deprecated `old_code/v11docsumvim.py`
script, by contrast, prints the raw concatenation (see the
counterexample). -/
theorem C8_final_summarization_pass (client : Client) (fuel : Nat) (text msg : Str)
    (delay : Nat) (ss : List Str) (tr : List Nat)
    (h : client text = .rateLimitError msg ∨ client text = .badRequestError msg)
    (hr : containsRMP msg = false)
    (hs : run_chunks (fun chunk => groq_query client fuel chunk 5)
      (split_document_into_chunks text 4000) = (some ss, tr)) :
    (groq_query client (fuel + 1) text delay).1 =
      (groq_query client fuel (joinSpace ss) 5).1 := by
  rw [groq_query_split h hr fuel, hs]

theorem C8_witness :
    (groq_query (fun t => if t = " yo".toList then ApiResponse.rateLimitError "TPM".toList
        else ApiResponse.ok "z".toList) 2 " yo".toList 7).1 =
      (groq_query (fun t => if t = " yo".toList then ApiResponse.rateLimitError "TPM".toList
        else ApiResponse.ok "z".toList) 1 (joinSpace ["z".toList]) 5).1 :=
  C8_final_summarization_pass (fun t => if t = " yo".toList then
      ApiResponse.rateLimitError "TPM".toList else ApiResponse.ok "z".toList) 1
    " yo".toList "TPM".toList 7 ["z".toList] [] (Or.inl (by decide)) (by decide) (by decide)

/-- **C8** (counterexample).  The `old_code/v11docsumvim.py` pipeline's
final output is the fixed header plus the raw `" ".join` of the per-chunk
summaries, with no final summarization pass: with a summarizer that answers
`"S"` to every request, the pipeline's output is not `"S"` — it is not the
result of any summarization call. -/
theorem C8_counterexample :
    v11_final_summary (fun _ => "S".toList) "f".toList "hi".toList ≠ "S".toList ∧
    v11_final_summary (fun _ => "S".toList) "f".toList "hi".toList =
      v11_header "f".toList ++ "S".toList :=
  ⟨by decide, by decide⟩

/-- **C9.** Every chunk the chunker emits is a fixed point of chunking:
re-chunking it with the same bound returns exactly that one chunk. -/
theorem C9_chunk_fixed_point : ∀ (text : Str) (s : Nat),
    ∀ c ∈ split_document_into_chunks text s,
    split_document_into_chunks c s = [c] := by
  intro text s c hc
  rw [split_document_into_chunks] at hc
  by_cases h : text = []
  · rw [if_pos h] at hc
    simp at hc
  · rw [if_neg h] at hc
    exact chunkFrom_fixed (fun p hp => cleanedParagraphs_clean p hp)
      (packParas_chunks (fun p hp => cleanedParagraphs_clean p hp)
        (cleanedParagraphs text) [] (fun p hp => hp) (Or.inl rfl) c hc)

theorem C9_witness :
    "a".toList ∈ split_document_into_chunks "a\n\nbb".toList 1 ∧
    split_document_into_chunks "a".toList 1 = ["a".toList] :=
  ⟨by decide, C9_chunk_fixed_point "a\n\nbb".toList 1 "a".toList (by decide)⟩

/-- **C10.** The caller-supplied `delay` affects at most the very first
backoff wait: every sleep after the first lasts the default 5 seconds
(because every recursive self-call omits the `delay` argument), and every
sleep at all lasts either `delay` or 5 seconds. -/
theorem C10_delay_first_backoff_only (client : Client) (fuel : Nat) (text : Str)
    (d : Nat) :
    (∀ x ∈ (groq_query client fuel text d).2, x = d ∨ x = 5) ∧
    (∀ x ∈ (groq_query client fuel text d).2.drop 1, x = 5) := by
  cases fuel with
  | zero => exact ⟨fun x hx => by simp [groq_query] at hx, fun x hx => by simp [groq_query] at hx⟩
  | succ fuel =>
    have all5 : ∀ msg, (client text = .rateLimitError msg ∨
        client text = .badRequestError msg) → containsRMP msg = false →
        ∀ x ∈ (groq_query client (fuel + 1) text d).2, x = 5 := by
      intro msg h hr x hx
      rw [groq_query_split h hr fuel] at hx
      cases hrc : run_chunks (fun chunk => groq_query client fuel chunk 5)
          (split_document_into_chunks text 4000) with
      | mk res tr =>
        rw [hrc] at hx
        have htr : ∀ y ∈ tr, y = 5 := fun y hy =>
          run_chunks_trace (fun t => groq_trace_five fuel client t) _ y (by rw [hrc]; exact hy)
        cases res with
        | none => exact htr x hx
        | some ss =>
          rcases List.mem_append.mp hx with hx | hx
          · exact htr x hx
          · exact groq_trace_five fuel client (joinSpace ss) x hx
    have tail_of_cons : ∀ (tr : List Nat), (∀ x ∈ tr, x = 5) →
        (∀ x ∈ (d :: tr : List Nat), x = d ∨ x = 5) ∧
        (∀ x ∈ (d :: tr : List Nat).drop 1, x = 5) := by
      intro tr h5
      refine ⟨?_, by simpa using h5⟩
      intro x hx
      rcases List.mem_cons.mp hx with rfl | hx'
      · exact Or.inl rfl
      · exact Or.inr (h5 x hx')
    cases hct : client text with
    | ok content =>
      rw [groq_query_ok hct fuel]
      exact ⟨fun x hx => by simp at hx, fun x hx => by simp at hx⟩
    | internalServerError =>
      rw [groq_query_ise hct fuel]
      exact tail_of_cons _ (groq_trace_five fuel client text)
    | rateLimitError msg =>
      by_cases hr : containsRMP msg = true
      · rw [groq_query_rmp (Or.inl hct) hr fuel]
        exact tail_of_cons _ (groq_trace_five fuel client text)
      · have h5 := all5 msg (Or.inl hct) (by simpa using hr)
        exact ⟨fun x hx => Or.inr (h5 x hx),
          fun x hx => h5 x (List.drop_subset 1 _ hx)⟩
    | badRequestError msg =>
      by_cases hr : containsRMP msg = true
      · rw [groq_query_rmp (Or.inr hct) hr fuel]
        exact tail_of_cons _ (groq_trace_five fuel client text)
      · have h5 := all5 msg (Or.inr hct) (by simpa using hr)
        exact ⟨fun x hx => Or.inr (h5 x hx),
          fun x hx => h5 x (List.drop_subset 1 _ hx)⟩

theorem C10_witness :
    7 ∈ (groq_query (fun _ => ApiResponse.internalServerError) 3 "hi".toList 7).2 ∧
    (7 = 7 ∨ 7 = 5) ∧
    5 ∈ ((groq_query (fun _ => ApiResponse.internalServerError) 3 "hi".toList 7).2.drop 1) ∧
    5 = 5 :=
  ⟨by decide,
    (C10_delay_first_backoff_only (fun _ => ApiResponse.internalServerError) 3
      "hi".toList 7).1 7 (by decide),
    by decide,
    (C10_delay_first_backoff_only (fun _ => ApiResponse.internalServerError) 3
      "hi".toList 7).2 5 (by decide)⟩

end DocSum
